import Mathlib

/-!
A shallow embedding of the link-substitution engine of `src/LinkProcessor.js`
(class `LinkProcessor`), together with the pieces of the collaborator
interfaces it consumes (`DataManager.getSubstitutes`, `DataManager.getRootPath`,
and the `fs-extra` / `path` calls it makes).

Modelling conventions:
* JS strings are modelled as Lean `String`s (sequences of Unicode scalar
  values); JS indices and lengths, which count UTF-16 code units, are modelled
  by explicit UTF-16 unit counting (`charUnits`, `utf16Length`).
* The filesystem, the substitute snapshot, the configured root path and the
  process working directory are packaged in an `Env` record; `fs-extra` calls
  become total lookups into it.  Logger calls (`logger.warn/debug/error`) are
  side-channel output and are dropped.
* `async`/`await` sequencing is purely sequential in the source, so the
  embedding is direct; a thrown `Error(msg)` becomes `Except.error msg` and a
  `try`/`catch` becomes a `match` on the `Except`.
-/

/-- UTF-16 code units a character occupies (1 for BMP, 2 for a surrogate
pair), as used by JS string indices and `.length`. -/
def charUnits (c : Char) : Nat :=
  if c.toNat ≥ 0x10000 then 2 else 1

/-- JS `string.length` / index arithmetic: UTF-16 code units of a char list. -/
def utf16Length (l : List Char) : Nat :=
  (l.map charUnits).sum

/-- The set of characters removed by JS `String.prototype.trim`
(ECMA-262 WhiteSpace and LineTerminator code points). -/
def jsWhitespace (c : Char) : Bool :=
  c.toNat ∈ [0x9, 0xA, 0xB, 0xC, 0xD, 0x20, 0xA0, 0x1680,
    0x2000, 0x2001, 0x2002, 0x2003, 0x2004, 0x2005, 0x2006, 0x2007,
    0x2008, 0x2009, 0x200A, 0x2028, 0x2029, 0x202F, 0x205F, 0x3000, 0xFEFF]

/-- JS `String.prototype.trim`. -/
def jsTrim (s : String) : String :=
  ⟨((s.data.dropWhile jsWhitespace).reverse.dropWhile jsWhitespace).reverse⟩

/-- First position (in characters) at which `pat` occurs in `s`, the search
underlying JS `String.prototype.replace` with a string pattern. -/
def firstOccur : List Char → List Char → Option Nat
  | _, [] => some 0
  | [], _ :: _ => none
  | c :: cs, pat =>
    if pat.isPrefixOf (c :: cs) then some 0
    else (firstOccur cs pat).map (· + 1)

/-- ECMA-262 `GetSubstitution` for a string replacement with no capture
groups: `$$` is a literal dollar, `$&` the matched text, a backquote-dollar
the text before the match, a quote-dollar the text after it; any other `$`
(including `$<digit>`, there being no captures) is literal. -/
def getSubstitution (matched before after : List Char) : List Char → List Char
  | [] => []
  | '$' :: [] => ['$']
  | '$' :: d :: rest =>
    if d = '$' then '$' :: getSubstitution matched before after rest
    else if d = '&' then matched ++ getSubstitution matched before after rest
    else if d = Char.ofNat 0x60 then before ++ getSubstitution matched before after rest
    else if d = Char.ofNat 0x27 then after ++ getSubstitution matched before after rest
    else '$' :: getSubstitution matched before after (d :: rest)
  | c :: rest => c :: getSubstitution matched before after rest

/-- JS `s.replace(pat, rep)` with string `pat`: replaces only the FIRST
occurrence of `pat`, running `rep` through `GetSubstitution`. -/
def jsReplaceFirst (s pat rep : String) : String :=
  match firstOccur s.data pat.data with
  | none => s
  | some i =>
    let before := s.data.take i
    let after := s.data.drop (i + pat.data.length)
    ⟨before ++ getSubstitution pat.data before after rep.data ++ after⟩

/-- Whether `sub` occurs as a contiguous substring of `s`. -/
def containsSubstr (s sub : String) : Bool :=
  (firstOccur s.data sub.data).isSome

/-- One scanner result of `extractLinks` (source lines 179–183): the whole
marker (`match[0]`), the trimmed inner reference (`match[1].trim()`) and the
UTF-16 offset of the marker (`match.index`). -/
structure Link where
  full : String
  content : String
  index : Nat
deriving DecidableEq, Repr

/-- Splits a char list into its longest prefix of non-`}` characters and the
rest: the greedy `[^}]+` step of the marker regex. -/
def takeNonBrace : List Char → List Char × List Char
  | [] => ([], [])
  | c :: cs =>
    if c = '}' then ([], c :: cs)
    else
      let (run, rest) := takeNonBrace cs
      (c :: run, rest)

/-- The `linkPattern.exec` loop of `extractLinks` (and the identical
`content.matchAll(linkPattern)` of `processLinks`), for the regex
`/\{\{([^}]+)\}\}/g`: at each position a match requires `{{`, then one or
more non-`}` characters (greedy, and on a failed `}}` check backtracking
cannot help, since every earlier stopping point sits on a non-`}` char), then
`}}`; on failure the engine advances one position (the failed position holds
the BMP character `{` whenever a partial match was begun, so advancing by
`charUnits c` is advancing by one code unit there); matches are consumed
non-overlapping, left to right.  `matchAtPos` is the attempt at one position;
`fuel` is spent one unit per position advanced and is initialised to the list
length, which the wrapper `extractLinks` supplies; it exists only to make the
recursion structural. -/
def matchAtPos : List Char → Option (List Char × List Char)
  | '{' :: '{' :: cs2 =>
    (match takeNonBrace cs2 with
     | (inner@(_ :: _), '}' :: '}' :: rest) => some (inner, rest)
     | _ => none)
  | _ => none

def scanAux : Nat → List Char → Nat → List Link
  | 0, _, _ => []
  | _ + 1, [], _ => []
  | fuel + 1, c :: cs, i =>
    match matchAtPos (c :: cs) with
    | some (inner, rest) =>
      { full := ⟨'{' :: '{' :: (inner ++ ['}', '}'])⟩
        content := jsTrim ⟨inner⟩
        index := i } :: scanAux fuel rest (i + 4 + utf16Length inner)
    | none => scanAux fuel cs (i + charUnits c)

/-- Source `extractLinks(content)` (lines 173–187). -/
def extractLinks (content : String) : List Link :=
  scanAux content.data.length content.data 0

/-! ## The `path` module (posix) as used by the source -/

/-- Models `path.isAbsolute` on posix. -/
def isAbsolutePath (s : String) : Bool :=
  "/".data.isPrefixOf s.data

/-- Splits a char list at `/` (keeping empty pieces); the accumulator holds
the current piece reversed. -/
def segsAux (acc : List Char) : List Char → List (List Char)
  | [] => [acc.reverse]
  | c :: cs => if c = '/' then acc.reverse :: segsAux [] cs else segsAux (c :: acc) cs

/-- Path segments: split on `/`, dropping empty segments. -/
def splitSegs (s : String) : List String :=
  ((segsAux [] s.data).map (fun l => (⟨l⟩ : String))).filter (fun x => x ≠ "")

/-- Node's path normalisation on segment lists of an absolute path: `.` is
dropped, `..` pops the previous segment (and is dropped at the root).  The
accumulator holds the processed segments in reverse. -/
def normStack (acc : List String) : List String → List String
  | [] => acc.reverse
  | seg :: rest =>
    if seg = "." then normStack acc rest
    else if seg = ".." then normStack acc.tail rest
    else normStack (seg :: acc) rest

/-- Interleaves `/` between segments. -/
def joinSegsChars : List String → List Char
  | [] => []
  | [s] => s.data
  | s :: rest => s.data ++ '/' :: joinSegsChars rest

/-- Renders an absolute path from its normalised segments. -/
def joinAbs (segs : List String) : String :=
  ⟨'/' :: joinSegsChars segs⟩

/-- The right-to-left argument scan of `path.resolve`: arguments are taken
from the right until an absolute one is found; if none is, the working
directory (assumed absolute) is prepended.  Takes the argument list already
reversed. -/
def resolveParts (cwd : String) : List String → List String
  | [] => splitSegs cwd
  | a :: rest =>
    if isAbsolutePath a then splitSegs a
    else resolveParts cwd rest ++ splitSegs a

/-- Models `path.resolve(args...)` on posix, with working directory `cwd`. -/
def pathResolve (cwd : String) (args : List String) : String :=
  joinAbs (normStack [] (resolveParts cwd args.reverse))

/-- Models `path.join(a, b)` for the absolute `a` used by the source
(`path.join(fullFolderPath, file)`): concatenation plus normalisation. -/
def pathJoinAbs (a b : String) : String :=
  joinAbs (normStack [] (splitSegs a ++ splitSegs b))

/-- Models `path.extname`: the suffix of the basename from its last dot; a name with
no dot, or whose only dot leads it, has no extension. -/
def extname (p : String) : String :=
  let base := (splitSegs ("x/" ++ p)).getLastD "x"
  let n := (base.data.reverse.takeWhile (fun c => c ≠ '.')).length
  if n = base.data.length then ""          -- no dot at all
  else if n = base.data.length - 1 then "" -- only dot is the leading one
  else ⟨base.data.drop (base.data.length - 1 - n)⟩

/-- JS `String.prototype.toLowerCase`, restricted to the ASCII case mapping
(all extensions compared by the source are ASCII). -/
def jsToLower (s : String) : String :=
  ⟨s.data.map Char.toLower⟩

/-- JS `s.startsWith(p)`. -/
def jsStartsWith (s p : String) : Bool :=
  p.data.isPrefixOf s.data

/-- JS `s.endsWith(p)`. -/
def jsEndsWith (s p : String) : Bool :=
  p.data.isSuffixOf s.data

/-- JS `s.slice(0, -2)` as used on the wildcard reference (whose last two
characters are the ASCII `/*`, so code-unit and character counting agree). -/
def dropRight2 (s : String) : String :=
  ⟨s.data.take (s.data.length - 2)⟩

/-! ## The collaborator environment -/

/-- The collaborators `LinkProcessor` consumes: the substitute snapshot and
root path from `DataManager`, the process working directory used by
`path.resolve`, and a finite filesystem for the `fs-extra` calls.  `files`
and `dirs` are keyed by canonical absolute path; `unreadable` maps paths to
the message of the error their `readFile` throws. -/
structure Env where
  substitutes : List (String × String)
  rootPath : String
  cwd : String
  files : List (String × String)
  dirs : List (String × List String)
  unreadable : List (String × String)
deriving DecidableEq

/-- Canonical form of a path as the OS resolves it (relative paths are
against `cwd`). -/
def canon (env : Env) (p : String) : String :=
  pathResolve env.cwd [p]

/-- The JS truthiness test `if (substitutes[linkContent])` (source line 45,
also lines 236, 305 and 308): the key must be present AND its value must be
truthy, i.e. a non-empty string. -/
def truthySub (env : Env) (key : String) : Bool :=
  match env.substitutes.lookup key with
  | some v => v ≠ ""
  | none => false

/-- Models `fs.pathExists`. -/
def pathExistsB (env : Env) (p : String) : Bool :=
  ((env.files.lookup (canon env p)).isSome || (env.dirs.lookup (canon env p)).isSome)

/-- Models `(await fs.stat(p)).isDirectory()`, only ever called on existing paths. -/
def isDirB (env : Env) (p : String) : Bool :=
  (env.dirs.lookup (canon env p)).isSome

/-- Models `fs.readFile(p, 'utf8')`: an `unreadable` entry throws its message, a
stored file yields its content, anything else throws ENOENT. -/
def readTextF (env : Env) (p : String) : Except String String :=
  match (env.unreadable.lookup (canon env p)) with
  | some msg => .error msg
  | none =>
    match env.files.lookup (canon env p) with
    | some content => .ok content
    | none => .error ("ENOENT: no such file or directory, open " ++ p)

/-- Models `fs.readdir(p)`: entry list of a stored directory, ENOENT otherwise. -/
def listEntriesF (env : Env) (p : String) : Except String (List String) :=
  match env.dirs.lookup (canon env p) with
  | some entries => .ok entries
  | none => .error ("ENOENT: no such file or directory, scandir " ++ p)

/-! ## JS `Array.prototype.sort` on strings -/

/-- UTF-16 code-unit sequence of a string (surrogate pairs for astral
characters), the units JS string comparison is defined over. -/
def utf16Units (s : String) : List Nat :=
  s.data.foldr (fun c acc =>
    if c.toNat ≥ 0x10000 then
      (0xD800 + (c.toNat - 0x10000) / 0x400) :: (0xDC00 + (c.toNat - 0x10000) % 0x400) :: acc
    else c.toNat :: acc) []

/-- Lexicographic less-or-equal on unit sequences. -/
def lexLeNat : List Nat → List Nat → Bool
  | [], _ => true
  | _ :: _, [] => false
  | a :: as, b :: bs => if a < b then true else if b < a then false else lexLeNat as bs

/-- The default JS `Array.prototype.sort` order on strings: lexicographic by
UTF-16 code units. -/
def jsStrLe (a b : String) : Prop :=
  lexLeNat (utf16Units a) (utf16Units b) = true

instance : DecidableRel jsStrLe := fun a b =>
  inferInstanceAs (Decidable (lexLeNat (utf16Units a) (utf16Units b) = true))

instance : IsTotal String jsStrLe :=
  ⟨by
    intro a b
    simp only [jsStrLe]
    generalize utf16Units a = x
    generalize utf16Units b = y
    induction x generalizing y with
    | nil => exact Or.inl rfl
    | cons u us ih =>
      cases y with
      | nil => exact Or.inr rfl
      | cons v vs =>
        simp only [lexLeNat]
        rcases Nat.lt_trichotomy u v with h | h | h
        · simp [h]
        · subst h
          simpa [Nat.lt_irrefl] using ih vs
        · simp [h, Nat.lt_asymm h]⟩

instance : IsTrans String jsStrLe :=
  ⟨by
    intro a b c
    simp only [jsStrLe]
    generalize utf16Units a = x
    generalize utf16Units b = y
    generalize utf16Units c = z
    induction x generalizing y z with
    | nil => intro _ _; rfl
    | cons u us ih =>
      cases y with
      | nil => intro h; exact absurd h (by simp [lexLeNat])
      | cons v vs =>
        cases z with
        | nil => intro _ h; exact absurd h (by simp [lexLeNat])
        | cons w ws =>
          simp only [lexLeNat]
          intro h1 h2
          rcases Nat.lt_trichotomy u v with huv | huv | huv
          · rcases Nat.lt_trichotomy v w with hvw | hvw | hvw
            · simp [Nat.lt_trans huv hvw]
            · subst hvw; simp [huv]
            · simp [hvw, Nat.lt_asymm hvw] at h2
          · subst huv
            rcases Nat.lt_trichotomy u w with hvw | hvw | hvw
            · simp [hvw]
            · subst hvw
              simp only [Nat.lt_irrefl, if_false] at h1 h2 ⊢
              exact ih vs ws h1 h2
            · simp [hvw, Nat.lt_asymm hvw] at h2
          · simp [huv, Nat.lt_asymm huv] at h1⟩

/-! ## LinkProcessor core

`processLinks` (source lines 11–40), `resolveLink` (42–96) and
`resolveFolderWildcard` (98–170) are mutually recursive; every cycle through
them passes through the `depth > this.maxDepth` guard at the top of
`processLinks`, with `resolveLink` invoked at `depth + 1` and in turn calling
`processLinks` at the depth it received.  The embedding reifies the guard as
structural fuel `11 - depth` (so fuel `0` is exactly `depth > 10`, and the
`depth + 1` hand-off is the step from fuel `n + 1` to `n`): the resolver
bodies are written once, with the recursive `processLinks` call abstracted as
`recur`, and `processLinksAux` closes the knot structurally.  The public
wrappers below restore the source signatures over `depth`. -/

/-- Source `this.maxDepth` (line 8). -/
def maxDepth : Nat := 10

/-- The file branch of `resolveLink` (source lines 55–96): root check, path
resolution, the `startsWith` security check, existence, extension, then read;
`recur` stands for `processLinks(fileContent, depth)`. -/
def resolveFileCore (env : Env) (linkContent : String) (recur : String → String) :
    Except String String :=
  if env.rootPath = "" then
    .error "Root path not set. Use /root command to set the root directory."
  else
    let filePath := if isAbsolutePath linkContent then linkContent
                    else pathResolve env.cwd [env.rootPath, linkContent]
    let normalizedRoot := pathResolve env.cwd [env.rootPath]
    let normalizedFile := pathResolve env.cwd [filePath]
    if ¬ jsStartsWith normalizedFile normalizedRoot then
      .error ("File path outside root directory: " ++ linkContent)
    else if ¬ pathExistsB env filePath then
      .error ("File not found: " ++ linkContent)
    else
      let ext := jsToLower (extname filePath)
      if ¬ (ext ∈ [".md", ".txt"]) then
        .error ("Unsupported file type: " ++ ext ++ ". Only .md and .txt files are supported.")
      else
        match readTextF env filePath with
        | .ok fileContent => .ok (recur fileContent)
        | .error m => .error ("Failed to read file: " ++ linkContent ++ " - " ++ m)

/-- One iteration of the folder-wildcard read loop (source lines 147–161):
the two `combinedContent.push` calls on success, the inline annotation on a
read failure. -/
def wildcardBlock (env : Env) (fullFolderPath file : String) : List String :=
  let filePath := pathJoinAbs fullFolderPath file
  match readTextF env filePath with
  | .ok fileContent => ["\n--- " ++ file ++ " ---\n", fileContent]
  | .error m => ["\n--- " ++ file ++ " ---\n[ERROR: Failed to read file - " ++ m ++ "]\n"]

/-- Source `resolveFolderWildcard` (lines 98–170) with the trailing recursive
`processLinks(result, depth)` abstracted as `recur`. -/
def resolveFolderWildcardCore (env : Env) (linkContent : String) (recur : String → String) :
    Except String String :=
  let folderPath := dropRight2 linkContent
  if env.rootPath = "" then
    .error "Root path not set. Use /root command to set the root directory."
  else
    let fullFolderPath := if isAbsolutePath folderPath then folderPath
                          else pathResolve env.cwd [env.rootPath, folderPath]
    let normalizedRoot := pathResolve env.cwd [env.rootPath]
    let normalizedFolder := pathResolve env.cwd [fullFolderPath]
    if ¬ jsStartsWith normalizedFolder normalizedRoot then
      .error ("Folder path outside root directory: " ++ folderPath)
    else if ¬ pathExistsB env fullFolderPath then
      .error ("Folder not found: " ++ folderPath)
    else if ¬ isDirB env fullFolderPath then
      .error ("Path is not a directory: " ++ folderPath)
    else
      match listEntriesF env fullFolderPath with
      | .error m => .error ("Failed to read folder: " ++ folderPath ++ " - " ++ m)
      | .ok files =>
        let supportedFiles :=
          List.insertionSort jsStrLe
            (files.filter (fun file => jsToLower (extname file) ∈ [".md", ".txt"]))
        if supportedFiles.isEmpty then
          .ok ("[No supported files found in " ++ folderPath ++ "]")
        else
          let combinedContent :=
            supportedFiles.foldl (fun acc file => acc ++ wildcardBlock env fullFolderPath file) []
          .ok (recur (String.join combinedContent))

/-- The `fullFolderPath` a wildcard reference resolves to (source lines
99–111), named so theorem statements can speak about it. -/
def wildcardTarget (env : Env) (linkContent : String) : String :=
  let folderPath := dropRight2 linkContent
  if isAbsolutePath folderPath then folderPath
  else pathResolve env.cwd [env.rootPath, folderPath]

/-- The dispatch of `resolveLink` (source lines 42–53): substitute (by JS
truthiness), else wildcard, else file.  In the substitute branch `recur`
stands for `processLinks(substitutes[linkContent], depth)`. -/
def resolveLinkCore (env : Env) (linkContent : String) (recur : String → String) :
    Except String String :=
  if truthySub env linkContent then
    .ok (recur ((env.substitutes.lookup linkContent).getD ""))
  else if jsEndsWith linkContent "/*" then
    resolveFolderWildcardCore env linkContent recur
  else
    resolveFileCore env linkContent recur

/-- Source `processLinks` over fuel `11 - depth`: fuel `0` is the `depth > 10` guard
returning the content unchanged; otherwise every marker found by the regex
scan of the original content is processed left to right, each via
`resolveLink(linkContent, depth + 1)` (fuel one less), splicing with JS
`String.replace` on success and with the `{{ref}} [ERROR: msg]` annotation on
a caught failure (source lines 23–37). -/
def processLinksAux : Nat → Env → String → String
  | 0, _, content => content
  | fuel + 1, env, content =>
    (extractLinks content).foldl
      (fun processed lnk =>
        match resolveLinkCore env lnk.content (fun c => processLinksAux fuel env c) with
        | .ok replacement => jsReplaceFirst processed lnk.full replacement
        | .error msg =>
          jsReplaceFirst processed lnk.full ("\x7b\x7b" ++ lnk.content ++ "\x7d\x7d [ERROR: " ++ msg ++ "]"))
      content

/-- Source `processLinks(content, depth)` (lines 11–40). -/
def processLinks (env : Env) (content : String) (depth : Nat) : String :=
  processLinksAux (11 - depth) env content

/-- Source `resolveLink(linkContent, depth)` (lines 42–96). -/
def resolveLink (env : Env) (linkContent : String) (depth : Nat) : Except String String :=
  resolveLinkCore env linkContent (fun c => processLinksAux (11 - depth) env c)

/-- Source `resolveFolderWildcard(linkContent, depth)` (lines 98–170). -/
def resolveFolderWildcard (env : Env) (linkContent : String) (depth : Nat) :
    Except String String :=
  resolveFolderWildcardCore env linkContent (fun c => processLinksAux (11 - depth) env c)

/-- One element of `validateLinks`' result array (source lines 197–207). -/
structure ValidationOutcome where
  link : String
  valid : Bool
  error : Option String
deriving DecidableEq, Repr

/-- Source `validateLinks(content)` (lines 190–212): resolves each extracted
link at depth 0. -/
def validateLinks (env : Env) (content : String) : List ValidationOutcome :=
  (extractLinks content).map fun l =>
    match resolveLink env l.content 0 with
    | .ok _ => ⟨l.content, true, none⟩
    | .error m => ⟨l.content, false, some m⟩

/-- The spec's recursive-chain example environment. -/
def envChain : Env :=
  { substitutes := [("top", "{{mid}}"), ("mid", "{{leaf}}"), ("leaf", "done")]
    rootPath := "/r", cwd := "/", files := [], dirs := [("/r", [])], unreadable := [] }

/-- A self-referential substitute. -/
def envCyc : Env :=
  { substitutes := [("a", "{{a}}")]
    rootPath := "/r", cwd := "/", files := [], dirs := [("/r", [])], unreadable := [] }

/-! ## getDependencyTree (source lines 215–283) -/

/-- First `n` UTF-16 units of a char list (JS `substring(0, n)`; a surrogate
pair is never split because the call sites use BMP text). -/
def takeUnits : Nat → List Char → List Char
  | _, [] => []
  | n, c :: cs => if charUnits c ≤ n then c :: takeUnits (n - charUnits c) cs else []

/-- The tree-node label `content.substring(0, 100) + (content.length > 100 ?
'...' : '')` (source line 218). -/
def jsTruncate (s : String) : String :=
  ⟨takeUnits 100 s.data⟩ ++ (if 100 < utf16Length s.data then "..." else "")

/-- The JSON shape `getDependencyTree` builds: a `node` holds the truncated
content and one entry per extracted link; an entry is `circular`, a
`sub`stitute or `fileNode` with its child tree, `missing`, or `errorNode`
with the caught message (`children: null` entries carry no child). -/
inductive DepTree where
  | node (content : String) (links : List DepTree) : DepTree
  | circular (name : String) : DepTree
  | sub (name : String) (children : DepTree) : DepTree
  | fileNode (name path : String) (children : DepTree) : DepTree
  | missing (name : String) : DepTree
  | errorNode (name msg : String) : DepTree

/-- The references named by a list of scanner results. -/
def refsOfLinks (links : List Link) : Finset String :=
  (links.map Link.content).toFinset

/-- The references named inside a text. -/
def refsOf (content : String) : Finset String :=
  refsOfLinks (extractLinks content)

/-- Every reference nameable from any stored content of the environment
(substitute values and file contents); recursion of `getDependencyTree`
always descends into one of these. -/
def allRefs (env : Env) : Finset String :=
  (((env.substitutes.map Prod.snd) ++ (env.files.map Prod.snd)).map refsOf).foldr (· ∪ ·) ∅

mutual

/-- Source `getDependencyTree(content, visited)` (lines 215–283).  The JS
`visited` set is mutated as add / recurse-on-a-copy / delete around each
link, which is exactly: the child call receives `insert link.content
visited`, siblings receive `visited` unchanged. -/
def getDependencyTree (env : Env) (content : String) (visited : Finset String) : DepTree :=
  DepTree.node (jsTruncate content) (depLinks env (extractLinks content) visited)
termination_by (((allRefs env ∪ refsOf content) \ visited).card, (extractLinks content).length + 1)
decreasing_by
  exact Prod.Lex.right _ (Nat.lt_succ_self _)

/-- The `for (const link of links)` loop body of `getDependencyTree` (source
lines 222–280).  Note the file branch validates nothing: no root-configured
check, no `startsWith` security check, no extension check — it resolves
against `rootPath` (or the working directory when `rootPath` is empty) and
reads whatever exists. -/
def depLinks (env : Env) : List Link → Finset String → List DepTree
  | [], _ => []
  | l :: ls, visited =>
    (if _hmem : l.content ∈ visited then DepTree.circular l.content
     else if htr : truthySub env l.content then
       DepTree.sub l.content
         (getDependencyTree env ((env.substitutes.lookup l.content).getD "")
           (insert l.content visited))
     else
       let filePath := if isAbsolutePath l.content then l.content
                       else pathResolve env.cwd [env.rootPath, l.content]
       if pathExistsB env filePath then
         match hr : readTextF env filePath with
         | .ok fileContent =>
           DepTree.fileNode l.content filePath
             (getDependencyTree env fileContent (insert l.content visited))
         | .error m => DepTree.errorNode l.content m
       else DepTree.missing l.content)
    :: depLinks env ls visited
termination_by links visited => (((allRefs env ∪ refsOfLinks links) \ visited).card, links.length)
decreasing_by
  · -- descent into a substitute value
    have lookup_mem : ∀ (L : List (String × String)) (k v : String),
        L.lookup k = some v → v ∈ L.map Prod.snd := by
      intro L
      induction L with
      | nil => intro k v h; simp [List.lookup] at h
      | cons p ps ih =>
        intro k v h
        obtain ⟨a, b⟩ := p
        rw [List.lookup] at h
        cases hk : (k == a) with
        | true =>
          rw [hk] at h
          simp only [Option.some.injEq] at h
          simp [h]
        | false =>
          rw [hk] at h
          simp [ih _ _ h]
    have refs_sub : ∀ (v : String),
        v ∈ (env.substitutes.map Prod.snd) ++ (env.files.map Prod.snd) →
        refsOf v ⊆ allRefs env := by
      intro v hv
      unfold allRefs
      generalize (env.substitutes.map Prod.snd) ++ (env.files.map Prod.snd) = L at hv
      induction L with
      | nil => cases hv
      | cons y ys ih =>
        simp only [List.map_cons, List.foldr_cons]
        rcases List.mem_cons.mp hv with h | h
        · subst h; exact Finset.subset_union_left
        · exact (ih h).trans Finset.subset_union_right
    have card_step : ∀ (name v : String) (S : Finset String),
        refsOf v ⊆ allRefs env → name ∈ S → name ∉ visited →
        ((allRefs env ∪ refsOf v) \ insert name visited).card <
          ((allRefs env ∪ S) \ visited).card := by
      intro name v S hsub hmemS hnv
      apply Finset.card_lt_card
      rw [Finset.ssubset_def]
      constructor
      · intro x hx
        rw [Finset.mem_sdiff] at hx ⊢
        rcases hx with ⟨hx1, hx2⟩
        refine ⟨?_, fun hxv => hx2 (Finset.mem_insert_of_mem hxv)⟩
        rcases Finset.mem_union.mp hx1 with h | h
        · exact Finset.mem_union_left _ h
        · exact Finset.mem_union_left _ (hsub h)
      · intro hcon
        have h1 : name ∈ (allRefs env ∪ S) \ visited :=
          Finset.mem_sdiff.mpr ⟨Finset.mem_union_right _ hmemS, hnv⟩
        have h2 := hcon h1
        rw [Finset.mem_sdiff] at h2
        exact h2.2 (Finset.mem_insert_self _ _)
    apply Prod.Lex.left
    apply card_step l.content ((List.lookup l.content env.substitutes).getD "")
      (refsOfLinks (l :: ls))
    · have hv : ∃ v, env.substitutes.lookup l.content = some v ∧ v ≠ "" := by
        unfold truthySub at htr
        cases hl : List.lookup l.content env.substitutes with
        | none => rw [hl] at htr; simp at htr
        | some v =>
          rw [hl] at htr
          simp only [decide_eq_true_eq] at htr
          exact ⟨v, rfl, htr⟩
      rcases hv with ⟨v, hv, _⟩
      rw [hv, Option.getD_some]
      exact refs_sub v (List.mem_append_left _ (lookup_mem _ _ _ hv))
    · simp [refsOfLinks]
    · exact _hmem
  · -- descent into a file content
    have lookup_mem : ∀ (L : List (String × String)) (k v : String),
        L.lookup k = some v → v ∈ L.map Prod.snd := by
      intro L
      induction L with
      | nil => intro k v h; simp [List.lookup] at h
      | cons p ps ih =>
        intro k v h
        obtain ⟨a, b⟩ := p
        rw [List.lookup] at h
        cases hk : (k == a) with
        | true =>
          rw [hk] at h
          simp only [Option.some.injEq] at h
          simp [h]
        | false =>
          rw [hk] at h
          simp [ih _ _ h]
    have refs_sub : ∀ (v : String),
        v ∈ (env.substitutes.map Prod.snd) ++ (env.files.map Prod.snd) →
        refsOf v ⊆ allRefs env := by
      intro v hv
      unfold allRefs
      generalize (env.substitutes.map Prod.snd) ++ (env.files.map Prod.snd) = L at hv
      induction L with
      | nil => cases hv
      | cons y ys ih =>
        simp only [List.map_cons, List.foldr_cons]
        rcases List.mem_cons.mp hv with h | h
        · subst h; exact Finset.subset_union_left
        · exact (ih h).trans Finset.subset_union_right
    have card_step : ∀ (name v : String) (S : Finset String),
        refsOf v ⊆ allRefs env → name ∈ S → name ∉ visited →
        ((allRefs env ∪ refsOf v) \ insert name visited).card <
          ((allRefs env ∪ S) \ visited).card := by
      intro name v S hsub hmemS hnv
      apply Finset.card_lt_card
      rw [Finset.ssubset_def]
      constructor
      · intro x hx
        rw [Finset.mem_sdiff] at hx ⊢
        rcases hx with ⟨hx1, hx2⟩
        refine ⟨?_, fun hxv => hx2 (Finset.mem_insert_of_mem hxv)⟩
        rcases Finset.mem_union.mp hx1 with h | h
        · exact Finset.mem_union_left _ h
        · exact Finset.mem_union_left _ (hsub h)
      · intro hcon
        have h1 : name ∈ (allRefs env ∪ S) \ visited :=
          Finset.mem_sdiff.mpr ⟨Finset.mem_union_right _ hmemS, hnv⟩
        have h2 := hcon h1
        rw [Finset.mem_sdiff] at h2
        exact h2.2 (Finset.mem_insert_self _ _)
    have hmemv : fileContent ∈ env.files.map Prod.snd := by
      unfold readTextF at hr
      cases hu : List.lookup (canon env filePath) env.unreadable with
      | some m => rw [hu] at hr; simp at hr
      | none =>
        rw [hu] at hr
        cases hf : List.lookup (canon env filePath) env.files with
        | none => rw [hf] at hr; simp at hr
        | some c =>
          rw [hf] at hr
          simp only [Except.ok.injEq] at hr
          subst hr
          exact lookup_mem _ _ _ hf
    apply Prod.Lex.left
    apply card_step l.content fileContent (refsOfLinks (l :: ls))
    · exact refs_sub fileContent (List.mem_append_right _ hmemv)
    · simp [refsOfLinks]
    · exact _hmem
  · -- rest of the link list
    have hle : ((allRefs env ∪ refsOfLinks ls) \ visited).card ≤
        ((allRefs env ∪ refsOfLinks (l :: ls)) \ visited).card := by
      apply Finset.card_le_card
      intro x hx
      rw [Finset.mem_sdiff] at hx ⊢
      refine ⟨?_, hx.2⟩
      rcases Finset.mem_union.mp hx.1 with h | h
      · exact Finset.mem_union_left _ h
      · refine Finset.mem_union_right _ ?_
        simp only [refsOfLinks, List.map_cons, List.mem_toFinset] at h ⊢
        exact List.mem_cons_of_mem _ h
    rcases lt_or_eq_of_le hle with h | h
    · exact Prod.Lex.left _ _ h
    · rw [h]; exact Prod.Lex.right _ (Nat.lt_succ_self _)

end

/-! ## checkCircularDependencies (source lines 286–324)

The source threads two mutable `Set`s (`visited`, global; `recursionStack`,
add/delete-balanced around each call) and an accumulating `cycles` array
through a recursive closure `dfs(key, path)`.  The embedding threads them as
an explicit state record.  Two bookkeeping facts of every actual call are
taken as hypothesis arguments (they hold at the top-level call and are
re-established at each recursive call): `recursionStack` holds exactly the
elements of `path` (it equals `path.reverse`, since the stack pushes where
the path appends), and every name on `path` passed the truthiness test when
it was pushed.  The returned subtype records that the stack is restored on
return and that every newly recorded cycle is well-formed; the first is
needed for termination, the second yields the general cycle-shape theorem. -/

/-- The DFS state: `visited`, `recursionStack` and `cycles`. -/
structure CycleState where
  visited : List String
  stack : List String
  cycles : List (List String)

/-- Models `Object.keys(substitutes)` in insertion order. -/
def subKeys (env : Env) : List String :=
  env.substitutes.map Prod.fst

/-- Shape of a recorded cycle: non-empty, returning to its start, and made of
names whose substitute entry is truthy. -/
def cycleOK (env : Env) (c : List String) : Prop :=
  c ≠ [] ∧ c.head? = c.getLast? ∧ ∀ n ∈ c, truthySub env n = true

mutual

/-- The closure `dfs(key, path)` (source lines 292–315): a key on the current
stack records `[...path.slice(path.indexOf(key)), key]` and returns; a fully
explored key returns; otherwise the key joins `visited` and the stack, its
content's links are traversed when the content is truthy, and the stack entry
is removed on the way out. -/
def dfs (env : Env) (key : String) (path : List String) (st : CycleState)
    (hsp : st.stack = path.reverse) (hpath : ∀ n ∈ path, truthySub env n = true) :
    {st' : CycleState // st'.stack = st.stack ∧
      ∀ c ∈ st'.cycles, c ∈ st.cycles ∨ cycleOK env c} :=
  if hs : key ∈ st.stack then
    ⟨{st with cycles := st.cycles ++ [path.drop (path.indexOf key) ++ [key]]}, by
      refine ⟨rfl, ?_⟩
      intro c hc
      rcases List.mem_append.mp hc with h | h
      · exact Or.inl h
      · right
        have hkp : key ∈ path := by
          rw [hsp] at hs
          exact List.mem_reverse.mp hs
        have hlt : path.indexOf key < path.length := List.indexOf_lt_length.mpr hkp
        have hdropeq : path.drop (path.indexOf key) =
            key :: path.drop (path.indexOf key + 1) := by
          rw [List.drop_eq_getElem_cons hlt, List.getElem_indexOf hlt]
        have hcd : c = path.drop (path.indexOf key) ++ [key] := by
          simpa using h
        subst hcd
        refine ⟨by simp, ?_, ?_⟩
        · rw [List.getLast?_concat, hdropeq]
          rfl
        · intro n hn
          rcases List.mem_append.mp hn with h' | h'
          · exact hpath n (List.drop_subset _ _ h')
          · rw [List.mem_singleton.mp h']
            exact hpath key hkp⟩
  else if _hv : key ∈ st.visited then
    ⟨st, rfl, fun c hc => Or.inl hc⟩
  else
    -- `visited.add(key); recursionStack.add(key);`
    let st2 : CycleState :=
      { visited := key :: st.visited, stack := key :: st.stack, cycles := st.cycles }
    if htr : truthySub env key then
      -- `const content = substitutes[key]` is truthy: traverse its links
      let content := (env.substitutes.lookup key).getD ""
      let res := dfsList env (extractLinks content) (path ++ [key]) st2
        (by simp [st2, hsp])
        (by
          intro n hn
          rcases List.mem_append.mp hn with h | h
          · exact hpath n h
          · rw [List.mem_singleton.mp h]; exact htr)
      -- `recursionStack.delete(key)`
      ⟨{ res.val with stack := res.val.stack.erase key }, by
        have hstk : res.val.stack = key :: st.stack := res.property.1
        refine ⟨?_, ?_⟩
        · rw [hstk]
          exact List.erase_cons_head key st.stack
        · intro c hc
          exact res.property.2 c hc⟩
    else
      ⟨{ st2 with stack := st2.stack.erase key }, by
        refine ⟨List.erase_cons_head key st.stack, fun c hc => Or.inl hc⟩⟩
termination_by ((((subKeys env).toFinset \ st.stack.toFinset).card, 0) : Nat × Nat)
decreasing_by
  apply Prod.Lex.left
  have hkK : key ∈ (subKeys env).toFinset := by
    rw [List.mem_toFinset]
    have hex : ∃ v, env.substitutes.lookup key = some v := by
      unfold truthySub at htr
      cases hl : List.lookup key env.substitutes with
      | none => rw [hl] at htr; simp at htr
      | some v => exact ⟨v, rfl⟩
    rcases hex with ⟨v, hv⟩
    unfold subKeys
    have lookup_mem_keys : ∀ (L : List (String × String)) (k w : String),
        L.lookup k = some w → k ∈ L.map Prod.fst := by
      intro L
      induction L with
      | nil => intro k w h; simp [List.lookup] at h
      | cons p ps ih =>
        intro k w h
        obtain ⟨a, b⟩ := p
        rw [List.lookup] at h
        cases hk : (k == a) with
        | true =>
          have : k = a := eq_of_beq hk
          simp [this]
        | false =>
          rw [hk] at h
          simp [ih _ _ h]
    exact lookup_mem_keys _ _ _ hv
  apply Finset.card_lt_card
  rw [Finset.ssubset_def]
  constructor
  · intro x hx
    rw [Finset.mem_sdiff] at hx ⊢
    refine ⟨hx.1, fun hxs => hx.2 ?_⟩
    rw [List.toFinset_cons]
    exact Finset.mem_insert_of_mem hxs
  · intro hcon
    have h1 : key ∈ (subKeys env).toFinset \ st.stack.toFinset :=
      Finset.mem_sdiff.mpr ⟨hkK, fun hmem => hs (List.mem_toFinset.mp hmem)⟩
    have h2 := hcon h1
    rw [Finset.mem_sdiff, List.toFinset_cons] at h2
    exact h2.2 (Finset.mem_insert_self _ _)

/-- The `for (const link of links)` loop inside `dfs` (source lines 307–311):
recurse on each link that names a truthy substitute, with `[...path, key]`
already appended by the caller. -/
def dfsList (env : Env) (links : List Link) (path : List String) (st : CycleState)
    (hsp : st.stack = path.reverse) (hpath : ∀ n ∈ path, truthySub env n = true) :
    {st' : CycleState // st'.stack = st.stack ∧
      ∀ c ∈ st'.cycles, c ∈ st.cycles ∨ cycleOK env c} :=
  match links with
  | [] => ⟨st, rfl, fun c hc => Or.inl hc⟩
  | l :: ls =>
    if _hedge : truthySub env l.content then
      let r1 := dfs env l.content path st hsp hpath
      let r2 := dfsList env ls path r1.val (r1.property.1.trans hsp) hpath
      ⟨r2.val, by
        refine ⟨r2.property.1.trans r1.property.1, ?_⟩
        intro c hc
        rcases r2.property.2 c hc with h | h
        · exact r1.property.2 c h
        · exact Or.inr h⟩
    else
      dfsList env ls path st hsp hpath
termination_by ((((subKeys env).toFinset \ st.stack.toFinset).card, links.length + 1) : Nat × Nat)
decreasing_by
  · exact Prod.Lex.right _ (Nat.succ_pos _)
  · have h := r1.2.1
    simp only [r1] at h
    rw [h]
    exact Prod.Lex.right _ (by simp only [List.length_cons]; omega)
  · exact Prod.Lex.right _ (by simp only [List.length_cons]; omega)

end

/-- Source `checkCircularDependencies()` (lines 286–324): run `dfs` from each
not-yet-visited key of the substitute object, over initially empty state, and
return the accumulated cycles. -/
def checkCircularDependencies (env : Env) : List (List String) :=
  ((subKeys env).foldl
    (fun (st : {s : CycleState // s.stack = []}) key =>
      if key ∈ st.val.visited then st
      else
        let r := dfs env key [] st.val (by rw [st.property]; rfl) (by intro n hn; cases hn)
        ⟨r.val, r.property.1.trans st.property⟩)
    ⟨⟨[], [], []⟩, rfl⟩).val.cycles

deriving instance DecidableEq for Except

/-! ## Definitions modelled from the spec, for comparison with the code -/

/-- Modelled from the spec (§4.1 and claim C2): `p` lies under root `r`
bounded at a path-separator boundary, so `/root-evil` does not lie under
`/root`. -/
def specUnderRoot (r p : String) : Prop :=
  p = r ∨ jsStartsWith p (r ++ "/") = true

/-- Modelled from the spec (§4.2 / claim C8's words): the marker grammar
"`{{` then any characters not containing `}}` then `}}`", scanning left to
right with the shortest match between a `{{` and the next `}}`.
`findClose` splits at the first `}}`. -/
def findClose : List Char → Option (List Char × List Char)
  | [] => none
  | '}' :: '}' :: rest => some ([], rest)
  | c :: cs => (findClose cs).map (fun p => (c :: p.1, p.2))

/-- Modelled from the spec (claim C8): the scanner the claim describes;
differs from the code's regex only in the inner-text language. -/
def specScanClaimAux : Nat → List Char → Nat → List Link
  | 0, _, _ => []
  | _ + 1, [], _ => []
  | fuel + 1, c :: cs, i =>
    match c, cs with
    | '{', '{' :: cs2 =>
      (match findClose cs2 with
       | some (inner, rest) =>
         { full := ⟨'{' :: '{' :: (inner ++ ['}', '}'])⟩
           content := jsTrim ⟨inner⟩
           index := i } :: specScanClaimAux fuel rest (i + 4 + utf16Length inner)
       | none => specScanClaimAux fuel cs (i + charUnits c))
    | _, _ => specScanClaimAux fuel cs (i + charUnits c)

/-- Modelled from the spec (claim C8): see `specScanClaimAux`. -/
def specScanClaim (s : String) : List Link :=
  specScanClaimAux s.data.length s.data 0

/-- Modelled from the spec (claim C5): replace **all** (non-overlapping,
left-to-right) occurrences of the literal marker string at once. -/
def specReplaceAllAux : Nat → List Char → List Char → List Char → List Char
  | 0, s, _, _ => s
  | fuel + 1, s, pat, rep =>
    match firstOccur s pat with
    | none => s
    | some i => s.take i ++ rep ++ specReplaceAllAux fuel (s.drop (i + pat.length)) pat rep

/-- Modelled from the spec (claim C5): see `specReplaceAllAux`. -/
def specReplaceAll (s pat rep : String) : String :=
  ⟨specReplaceAllAux s.data.length s.data pat.data rep.data⟩

/-! ## Concrete environments used by the claim theorems -/

/-- C2: a root `/root` with a sibling directory `/root-evil` outside it. -/
def envEvil : Env :=
  { substitutes := [], rootPath := "/root", cwd := "/"
    files := [("/root-evil/x.txt", "SECRET")], dirs := [("/root", [])], unreadable := [] }

/-- C3: a configured root and a file far outside it. -/
def envPasswd : Env :=
  { substitutes := [], rootPath := "/data/root", cwd := "/"
    files := [("/etc/passwd", "root:x:0:0")], dirs := [("/data/root", [])], unreadable := [] }

/-- C4: a substitute whose raw value contains a further marker. -/
def envC4 : Env :=
  { substitutes := [("a", "{{b}}"), ("b", "X")]
    rootPath := "/r", cwd := "/", files := [], dirs := [("/r", [])], unreadable := [] }

/-- C5: a cyclic substitute whose depth-bounded expansion still contains its
own marker text. -/
def envNest : Env :=
  { substitutes := [("a", "<{{a}}>")]
    rootPath := "/r", cwd := "/", files := [], dirs := [("/r", [])], unreadable := [] }

/-- C5 witness: a plain substitute appearing twice. -/
def envSub : Env :=
  { substitutes := [("x", "hello")]
    rootPath := "/r", cwd := "/", files := [], dirs := [("/r", [])], unreadable := [] }

/-- C6: nothing resolvable, so any file link fails `NotFound`. -/
def envM : Env :=
  { substitutes := [], rootPath := "/r", cwd := "/", files := [], dirs := [("/r", [])]
    unreadable := [] }

/-- C6: one failing link next to one working substitute. -/
def envMix : Env :=
  { substitutes := [("ok", "hello")], rootPath := "/r", cwd := "/", files := []
    dirs := [("/r", [])], unreadable := [] }

/-- C7: a substitute key with an empty (falsy) value that is also a readable
file path under the root. -/
def envC7 : Env :=
  { substitutes := [("a.md", "")], rootPath := "/r", cwd := "/"
    files := [("/r/a.md", "FILE")], dirs := [("/r", [])], unreadable := [] }

/-- C9: a directory with two readable supported files, one unsupported file
and one unreadable supported file. -/
def envWild : Env :=
  { substitutes := [], rootPath := "/r", cwd := "/"
    files := [("/r/docs/a.md", "Amd"), ("/r/docs/b.txt", "Btxt")]
    dirs := [("/r", ["docs"]), ("/r/docs", ["b.txt", "a.md", "c.png", "d.txt"])]
    unreadable := [("/r/docs/d.txt", "EACCES: permission denied")] }

/-- C10: the spec's mutually cyclic pair. -/
def envAB : Env :=
  { substitutes := [("A", "{{B}}"), ("B", "{{A}}")]
    rootPath := "", cwd := "/", files := [], dirs := [], unreadable := [] }

/-- C10: a self-loop. -/
def envSelf : Env :=
  { substitutes := [("A", "{{A}}")]
    rootPath := "", cwd := "/", files := [], dirs := [], unreadable := [] }

/-- C10: a substitute whose marker names a file, not a substitute. -/
def envFileEdge : Env :=
  { substitutes := [("A", "{{notes.md}}")]
    rootPath := "/r", cwd := "/", files := [("/r/notes.md", "{{A}}")]
    dirs := [("/r", ["notes.md"])], unreadable := [] }

/-! ## Shared helper lemmas -/

/-- Two folds agree when their step functions agree on the list's members. -/
theorem foldl_congr_mem {α β : Type} (l : List α) (f g : β → α → β) (init : β)
    (h : ∀ (b : β), ∀ a ∈ l, f b a = g b a) : l.foldl f init = l.foldl g init := by
  induction l generalizing init with
  | nil => rfl
  | cons x xs ih =>
    rw [List.foldl_cons, List.foldl_cons, h init x (List.mem_cons_self x xs)]
    exact ih _ (fun b a ha => h b a (List.mem_cons_of_mem _ ha))

/-- Below the depth bound, `processLinks` is the left-to-right fold over the
scanned markers of the original content, resolving each at `depth + 1` and
splicing with JS first-occurrence replacement (success) or the
trimmed-reference error annotation (failure). -/
theorem processLinks_step (env : Env) (content : String) (depth : Nat)
    (h : depth ≤ maxDepth) :
    processLinks env content depth =
      (extractLinks content).foldl
        (fun processed lnk =>
          match resolveLink env lnk.content (depth + 1) with
          | .ok replacement => jsReplaceFirst processed lnk.full replacement
          | .error msg =>
            jsReplaceFirst processed lnk.full
              ("\x7b\x7b" ++ lnk.content ++ "\x7d\x7d [ERROR: " ++ msg ++ "]"))
        content := by
  unfold processLinks resolveLink
  have h1 : 11 - depth = (10 - depth) + 1 := by unfold maxDepth at h; omega
  have h2 : 11 - (depth + 1) = 10 - depth := by omega
  rw [h1]
  simp only [h2]
  rfl

/-! ## Claim theorems -/

/-- C1: `expand` (`processLinks`) is a total function (it is defined by
structural recursion on the reified depth bound, for any substitute mapping,
cyclic ones included); whenever it is entered with `depth` exceeding the
maximum (10) it returns its input text unchanged (the warning is side-channel
logging, not an error — the function cannot throw); and the bound is enforced
only at that entry: `resolveLink`, called past the bound, still resolves and
returns the raw substitute value rather than refusing. -/
theorem claim_C1_depth_guard :
    (∀ (env : Env) (content : String) (depth : Nat), maxDepth < depth →
      processLinks env content depth = content) ∧
    (∀ (env : Env) (ref v : String) (depth : Nat),
      env.substitutes.lookup ref = some v → v ≠ "" → maxDepth < depth →
      resolveLink env ref depth = .ok v) := by
  constructor
  · intro env content depth h
    unfold processLinks
    have h0 : 11 - depth = 0 := by unfold maxDepth at h; omega
    rw [h0]
    rfl
  · intro env ref v depth hl hv h
    unfold resolveLink resolveLinkCore
    have h0 : 11 - depth = 0 := by unfold maxDepth at h; omega
    simp only [h0]
    have ht : truthySub env ref = true := by
      unfold truthySub
      rw [hl]
      simp [hv]
    simp [ht, hl, processLinksAux]

/-- C1 witness: on a self-referential substitute, entry past the bound is the
identity, and `resolveLink` past the bound still resolves. -/
theorem claim_C1_depth_guard_witness :
    processLinks envCyc "{{a}}" 11 = "{{a}}" ∧ resolveLink envCyc "a" 11 = .ok "{{a}}" :=
  ⟨claim_C1_depth_guard.1 envCyc "{{a}}" 11 (by decide),
   claim_C1_depth_guard.2 envCyc "a" "{{a}}" 11 (by decide) (by decide) (by decide)⟩

/-- C2 (code bug): the sandbox check is a plain string `startsWith`, not
bounded at a path separator, so the reference `../root-evil/x.txt` against
root `/root` canonicalizes to `/root-evil/x.txt`, which does not lie under
the root, yet resolution succeeds and returns the file's content instead of
failing `PathEscapesRoot`. -/
theorem claim_C2_escape_read :
    resolveLink envEvil "../root-evil/x.txt" 1 = .ok "SECRET" ∧
    pathResolve envEvil.cwd [envEvil.rootPath, "../root-evil/x.txt"] = "/root-evil/x.txt" ∧
    ¬ specUnderRoot "/root" "/root-evil/x.txt" := by
  refine ⟨by decide, by decide, ?_⟩
  intro h
  rcases h with h | h
  · exact absurd h (by decide)
  · exact absurd h (by decide)

/-- C4 counterexample: `resolveLink` on a substitute key does NOT return the
stored raw value unchanged — the stored value of `a` is `{{b}}`, but
resolution returns its full recursive expansion `X`. -/
theorem claim_C4_counterexample :
    envC4.substitutes.lookup "a" = some "{{b}}" ∧
    resolveLink envC4 "a" 1 = .ok "X" ∧
    (Except.ok "X" : Except String String) ≠ .ok "{{b}}" := by decide

/-- C4 amended: `resolveLink` on a (truthy) substitute key returns the stored
value RECURSIVELY EXPANDED through `processLinks` at the resolver's depth —
resolution and recursion are not orthogonal in this code, and
`validateLinks`, which calls `resolveLink` at depth 0, therefore performs
full recursive expansion per link. -/
theorem claim_C4_amended (env : Env) (ref v : String) (depth : Nat)
    (hl : env.substitutes.lookup ref = some v) (hv : v ≠ "") :
    resolveLink env ref depth = .ok (processLinks env v depth) := by
  unfold resolveLink resolveLinkCore processLinks
  have ht : truthySub env ref = true := by
    unfold truthySub
    rw [hl]
    simp [hv]
  simp [ht, hl]

/-- C4 witness. -/
theorem claim_C4_amended_witness :
    resolveLink envC4 "a" 1 = .ok (processLinks envC4 "{{b}}" 1) :=
  claim_C4_amended envC4 "a" "{{b}}" 1 (by decide) (by decide)

/-- C5 counterexample: with substitute `a ↦ "<{{a}}>"`, whose depth-bounded
expansion still contains the literal `{{a}}`, the input `{{a}}{{a}}` is NOT
rewritten by replacing every occurrence atomically: the second iteration's
replacement consumes the `{{a}}` inside the first iteration's splice, and the
second original marker survives unreplaced at the end of the output, which
therefore differs from the spec-modelled replace-all result. -/
theorem claim_C5_counterexample :
    processLinks envNest "{{a}}{{a}}" 0 =
      (⟨List.replicate 22 '<' ++ "{{a}}".data ++ List.replicate 22 '>' ++ "{{a}}".data⟩ :
        String) ∧
    processLinks envNest "{{a}}{{a}}" 0 ≠
      specReplaceAll "{{a}}{{a}}" "{{a}}"
        (match resolveLink envNest "a" 1 with
         | .ok r => r
         | .error _ => "") := by decide

/-- C5 amended: below the bound, each scanned marker is resolved at
`depth + 1` (the resolved content arriving fully expanded from that depth)
and spliced by replacing the FIRST occurrence of the literal marker string in
the current text (JS `String.replace` with a string pattern); identical
markers are each handled by their own left-to-right iteration rather than
replaced together. -/
theorem claim_C5_amended (env : Env) (content : String) (depth : Nat)
    (h : depth ≤ maxDepth)
    (hok : ∀ l ∈ extractLinks content, (resolveLink env l.content (depth + 1)).isOk = true) :
    processLinks env content depth =
      (extractLinks content).foldl
        (fun processed l =>
          match resolveLink env l.content (depth + 1) with
          | .ok r => jsReplaceFirst processed l.full r
          | .error _ => processed)
        content := by
  rw [processLinks_step env content depth h]
  apply foldl_congr_mem
  intro b a ha
  cases hres : resolveLink env a.content (depth + 1) with
  | ok r => rfl
  | error m =>
    have := hok a ha
    rw [hres] at this
    simp [Except.isOk, Except.toBool] at this

/-- C5 witness: two identical markers both end up substituted (one at a
time), yielding the same document a joint replacement would give here. -/
theorem claim_C5_amended_witness :
    processLinks envSub "{{x}} {{x}}" 0 = "hello hello" := by
  rw [claim_C5_amended envSub "{{x}} {{x}}" 0 (by decide) (by decide)]
  decide

/-- C6 counterexample: the inline annotation does NOT preserve the untouched
original marker text — for the marker `{{ missing }}` the annotation is
rebuilt from the trimmed reference, so the original spelling with its inner
whitespace does not occur in the output. -/
theorem claim_C6_counterexample :
    processLinks envM "{{ missing }}" 0 = "{{missing}} [ERROR: File not found: missing]" ∧
    containsSubstr (processLinks envM "{{ missing }}" 0) "{{ missing }}" = false := by decide

/-- C6 amended: every per-link failure is caught at the single-link boundary
and spliced as an inert annotation consisting of the marker REBUILT FROM THE
TRIMMED REFERENCE plus a bracketed error summary (equal to the original
marker text exactly when the marker carried no inner whitespace); no failure
escapes `processLinks`, which is a total function into strings; and a
document with one failing and one succeeding marker comes back as one
document carrying both the substitution and the annotation. -/
theorem claim_C6_amended :
    (∀ (env : Env) (content : String) (depth : Nat) (full ref : String) (i : Nat)
      (msg : String), depth ≤ maxDepth →
      extractLinks content = [⟨full, ref, i⟩] →
      resolveLink env ref (depth + 1) = .error msg →
      processLinks env content depth =
        jsReplaceFirst content full ("\x7b\x7b" ++ ref ++ "\x7d\x7d [ERROR: " ++ msg ++ "]")) ∧
    processLinks envMix "See {{missing}} and {{ok}}" 0 =
      "See {{missing}} [ERROR: File not found: missing] and hello" := by
  constructor
  · intro env content depth full ref i msg h hscan hres
    rw [processLinks_step env content depth h, hscan]
    rw [List.foldl_cons, List.foldl_nil]
    rw [hres]
  · decide

/-- C6 witness: the single-link error recurrence at a concrete input. -/
theorem claim_C6_amended_witness :
    processLinks envM "{{ missing }}" 0 =
      jsReplaceFirst "{{ missing }}" "{{ missing }}"
        ("\x7b\x7b" ++ "missing" ++ "\x7d\x7d [ERROR: " ++ "File not found: missing" ++ "]") :=
  claim_C6_amended.1 envM "{{ missing }}" 0 "{{ missing }}" "missing" 0
    "File not found: missing" (by decide) (by decide) (by decide)

/-- C7 counterexample: a reference that IS a key of the substitute mapping
(`a.md`, stored value `""`) does not resolve as a substitute link — the JS
truthiness test rejects the empty value and dispatch falls through to the
file branch, which reads the like-named file. -/
theorem claim_C7_counterexample :
    envC7.substitutes.lookup "a.md" = some "" ∧
    resolveLink envC7 "a.md" 1 = .ok "FILE" := by decide

/-- C7 amended: dispatch order is substitute-first, then wildcard, then file,
except that the substitute branch requires the stored value to be truthy
(non-empty): a key with an empty value falls through to the `/*` test and
then the file branch, even when the same string is a valid file path
(conversely, a truthy key wins over any coincident file). -/
theorem claim_C7_amended (env : Env) (ref : String) (depth : Nat) :
    (∀ v, env.substitutes.lookup ref = some v → v ≠ "" →
      resolveLink env ref depth = .ok (processLinks env v depth)) ∧
    (truthySub env ref = false → jsEndsWith ref "/*" = true →
      resolveLink env ref depth = resolveFolderWildcard env ref depth) ∧
    (truthySub env ref = false → jsEndsWith ref "/*" = false →
      resolveLink env ref depth = resolveFileCore env ref (fun c => processLinks env c depth)) := by
  refine ⟨fun v hl hv => claim_C4_amended env ref v depth hl hv, ?_, ?_⟩
  · intro ht hw
    unfold resolveLink resolveLinkCore resolveFolderWildcard
    simp [ht, hw]
  · intro ht hw
    unfold resolveLink resolveLinkCore resolveFileCore processLinks
    simp [ht, hw]

/-- C7 witness: all three dispatch branches at concrete references. -/
theorem claim_C7_amended_witness :
    resolveLink envChain "top" 0 = .ok (processLinks envChain "{{mid}}" 0) ∧
    resolveLink envWild "docs/*" 1 = resolveFolderWildcard envWild "docs/*" 1 ∧
    resolveLink envM "missing" 1 = resolveFileCore envM "missing"
      (fun c => processLinks envM c 1) :=
  ⟨(claim_C7_amended envChain "top" 0).1 "{{mid}}" (by decide) (by decide),
   (claim_C7_amended envWild "docs/*" 1).2.1 (by decide) (by decide),
   (claim_C7_amended envM "missing" 1).2.2 (by decide) (by decide)⟩

/-- C3 (code bug): `getDependencyTree` hands paths to the filesystem with no
sandbox validation at all — no root-configured check, no canonical-prefix
check: for the content `{{/etc/passwd}}` under root `/data/root` it tests
existence of and reads `/etc/passwd`, a path that does not lie under the
root, and splices that file's content into the returned tree.  (`expand` and
`validateLinks` do run the resolver's check before any read.) -/
theorem claim_C3_tree_reads_outside :
    getDependencyTree envPasswd "{{/etc/passwd}}" ∅ =
      DepTree.node "{{/etc/passwd}}"
        [DepTree.fileNode "/etc/passwd" "/etc/passwd" (DepTree.node "root:x:0:0" [])] ∧
    ¬ specUnderRoot "/data/root" "/etc/passwd" := by
  constructor
  · have e1 : extractLinks "{{/etc/passwd}}" = [⟨"{{/etc/passwd}}", "/etc/passwd", 0⟩] := by
      decide
    have e2 : extractLinks "root:x:0:0" = [] := by decide
    have t1 : truthySub envPasswd "/etc/passwd" = false := by decide
    have r1 : readTextF envPasswd "/etc/passwd" = .ok "root:x:0:0" := by decide
    have p1 : pathExistsB envPasswd "/etc/passwd" = true := by decide
    have a1 : isAbsolutePath "/etc/passwd" = true := by decide
    have j1 : jsTruncate "{{/etc/passwd}}" = "{{/etc/passwd}}" := by decide
    have j2 : jsTruncate "root:x:0:0" = "root:x:0:0" := by decide
    simp only [getDependencyTree, depLinks, e1, e2, t1, r1, p1, a1, j1, j2]
    simp only [Finset.not_mem_empty, dite_false, Bool.false_eq_true, dite_eq_ite, if_false,
      if_true, List.foldl_nil]
    norm_num
    split
    · split
      · rename_i fc hfc
        simp only [a1, if_true] at hfc
        rw [r1] at hfc
        injection hfc with hfc
        subst hfc
        simp [depLinks, e2, j2]
      · rename_i m hm
        simp only [a1, if_true] at hm
        rw [r1] at hm
        cases hm
    · rename_i hne
      exact absurd p1 hne
  · intro h
    rcases h with h | h
    · exact absurd h (by decide)
    · exact absurd h (by decide)

/-- Accumulating appends in a fold is appending the flattened blocks. -/
theorem foldl_append_blocks {α β : Type} (g : α → List β) (l : List α) (acc : List β) :
    l.foldl (fun a f => a ++ g f) acc = acc ++ (l.map g).flatten := by
  induction l generalizing acc with
  | nil => simp
  | cons x xs ih => simp [ih]

/-- Unfolds `String.join` through `String.mk`. -/
theorem data_join (ss : List String) : (String.join ss).data = ((ss.map String.data)).flatten := by
  rw [String.join_eq]

/-- Unfolds `String.append` through `String.mk`. -/
theorem data_append (a b : String) : (a ++ b).data = a.data ++ b.data := rfl

/-- Joining flattened per-item blocks is joining the per-item joins. -/
theorem join_flatten_blocks {α : Type} (g : α → List String) (l : List α) :
    String.join ((l.map g).flatten) = String.join (l.map (fun f => String.join (g f))) := by
  apply String.ext
  rw [data_join, data_join]
  rw [List.map_flatten, List.flatten_flatten]
  simp only [List.map_map]
  congr 1
  refine List.map_congr_left fun f _ => ?_
  simp [Function.comp, data_join]

/-- One wildcard block joined: the heading-plus-content (or inline error)
string for one directory entry. -/
theorem join_wildcardBlock (env : Env) (p f : String) :
    String.join (wildcardBlock env p f) =
      (match readTextF env (pathJoinAbs p f) with
       | .ok c => "\n--- " ++ f ++ " ---\n" ++ c
       | .error m => "\n--- " ++ f ++ " ---\n[ERROR: Failed to read file - " ++ m ++ "]\n") := by
  unfold wildcardBlock
  cases h : readTextF env (pathJoinAbs p f) with
  | ok c =>
    simp only [h]
    apply String.ext
    simp [data_join, data_append]
  | error m =>
    simp only [h]
    apply String.ext
    simp [data_join, data_append]

/-- C9: with the directory checks passed and entries listed, wildcard
resolution keeps exactly the entries with a case-insensitive `.md`/`.txt`
extension, sorted (a sorted permutation of the qualifying entries, in the JS
string order); when none qualify it succeeds with the informational
placeholder naming the directory; otherwise it succeeds with (the recursive
expansion of) the concatenation, in sorted order, of a heading line naming
each file followed by that file's content — an unreadable file contributing
an inline error under its heading instead of aborting the directory. -/
theorem claim_C9_wildcard (env : Env) (linkContent : String) (depth : Nat)
    (entries : List String)
    (hroot : ¬ env.rootPath = "")
    (hsand : jsStartsWith (pathResolve env.cwd [wildcardTarget env linkContent])
      (pathResolve env.cwd [env.rootPath]) = true)
    (hex : pathExistsB env (wildcardTarget env linkContent) = true)
    (hdir : isDirB env (wildcardTarget env linkContent) = true)
    (hls : listEntriesF env (wildcardTarget env linkContent) = .ok entries) :
    let qualifies : String → Bool := fun file => jsToLower (extname file) ∈ [".md", ".txt"]
    let supported := List.insertionSort jsStrLe (entries.filter qualifies)
    supported.Perm (entries.filter qualifies) ∧
    List.Sorted jsStrLe supported ∧
    (supported = [] →
      resolveFolderWildcard env linkContent depth =
        .ok ("[No supported files found in " ++ dropRight2 linkContent ++ "]")) ∧
    (supported ≠ [] →
      resolveFolderWildcard env linkContent depth =
        .ok (processLinks env
          (String.join (supported.map (fun file =>
            match readTextF env (pathJoinAbs (wildcardTarget env linkContent) file) with
            | .ok c => "\n--- " ++ file ++ " ---\n" ++ c
            | .error m =>
              "\n--- " ++ file ++ " ---\n[ERROR: Failed to read file - " ++ m ++ "]\n")))
          depth)) := by
  intro qualifies supported
  have htgt : (if isAbsolutePath (dropRight2 linkContent) = true then dropRight2 linkContent
      else pathResolve env.cwd [env.rootPath, dropRight2 linkContent]) =
      wildcardTarget env linkContent := rfl
  refine ⟨List.perm_insertionSort _ _, List.sorted_insertionSort _ _, ?_, ?_⟩
  · intro hemp
    unfold resolveFolderWildcard resolveFolderWildcardCore
    simp only [hroot, ite_false, if_false]
    rw [htgt]
    simp only [hsand, hex, hdir, hls, Bool.true_eq_false, not_true, if_false, ite_false]
    have hempty : (List.insertionSort jsStrLe (List.filter
        (fun file => decide (jsToLower (extname file) ∈ [".md", ".txt"])) entries)).isEmpty = true := by
      rw [List.isEmpty_iff]
      exact hemp
    simp only [hempty, if_true, ite_true]
  · intro hne
    unfold resolveFolderWildcard resolveFolderWildcardCore
    simp only [hroot, ite_false, if_false]
    rw [htgt]
    simp only [hsand, hex, hdir, hls, Bool.true_eq_false, not_true, if_false, ite_false]
    have hnonempty : (List.insertionSort jsStrLe (List.filter
        (fun file => decide (jsToLower (extname file) ∈ [".md", ".txt"])) entries)).isEmpty = false := by
      rw [List.isEmpty_eq_false_iff_exists_mem]
      rcases List.exists_mem_of_ne_nil _ hne with ⟨x, hx⟩
      exact ⟨x, hx⟩
    simp only [hnonempty, Bool.false_eq_true, if_false, ite_false]
    rw [foldl_append_blocks (wildcardBlock env _) _ []]
    rw [List.nil_append, join_flatten_blocks]
    simp only [join_wildcardBlock]
    rfl

/-- C9 witness: `b.txt`, `a.md`, `c.png`, `d.txt` under `docs/` expand to
`a.md` then `b.txt` then `d.txt` (sorted, `.png` excluded), each under a
filename heading, the unreadable `d.txt` contributing an inline error. -/
theorem claim_C9_wildcard_witness :
    resolveFolderWildcard envWild "docs/*" 1 =
      .ok ("\n--- a.md ---\nAmd\n--- b.txt ---\nBtxt\n--- d.txt ---\n" ++
        "[ERROR: Failed to read file - EACCES: permission denied]\n") := by
  have h := claim_C9_wildcard envWild "docs/*" 1 ["b.txt", "a.md", "c.png", "d.txt"]
    (by decide) (by decide) (by decide) (by decide) (by decide)
  rw [h.2.2.2 (by decide)]
  decide

/-- C10: `findCycles` (`checkCircularDependencies`) traverses only the
substitute-name graph — a marker that names no truthy substitute is not an
edge (`envFileEdge` yields no cycle even though the named file exists and
links back) — every recorded cycle is non-empty, returns to its starting
name, and consists of substitute names; the spec's mutually cyclic pair
yields exactly `[A, B, A]` (the sub-path of the stack from the first
occurrence of the revisited name through the current name, recorded once:
traversal stops there and the fully explored `B` is never re-traversed from
the second top-level start), and a self-loop yields `[A, A]`. -/
theorem claim_C10_cycles :
    (∀ (env : Env) (c : List String), c ∈ checkCircularDependencies env → cycleOK env c) ∧
    checkCircularDependencies envAB = [["A", "B", "A"]] ∧
    checkCircularDependencies envSelf = [["A", "A"]] ∧
    checkCircularDependencies envFileEdge = [] := by
  refine ⟨?_, ?_, ?_, ?_⟩
  · intro env c hc
    unfold checkCircularDependencies at hc
    have main : ∀ (keys : List String) (st : {s : CycleState // s.stack = []}),
        (∀ x ∈ st.val.cycles, cycleOK env x) →
        ∀ x ∈ (keys.foldl
            (fun (st : {s : CycleState // s.stack = []}) key =>
              if key ∈ st.val.visited then st
              else
                let r := dfs env key [] st.val (by rw [st.property]; rfl)
                  (by intro n hn; cases hn)
                ⟨r.val, r.property.1.trans st.property⟩)
            st).val.cycles,
        cycleOK env x := by
      intro keys
      induction keys with
      | nil => intro st h x hx; exact h x hx
      | cons k ks ih =>
        intro st h
        rw [List.foldl_cons]
        apply ih
        by_cases hk : k ∈ st.val.visited
        · simp only [hk, if_true, ite_true]
          exact h
        · simp only [hk, if_false, ite_false]
          intro x hx
          rcases (dfs env k [] st.val _ _).property.2 x hx with h' | h'
          · exact h x h'
          · exact h'
    exact main (subKeys env) ⟨⟨[], [], []⟩, rfl⟩
      (by intro x hx; exact absurd hx (List.not_mem_nil x)) c hc
  · have e1 : extractLinks "{{B}}" = [⟨"{{B}}", "B", 0⟩] := by decide
    have e2 : extractLinks "{{A}}" = [⟨"{{A}}", "A", 0⟩] := by decide
    have t1 : truthySub envAB "A" = true := by decide
    have t2 : truthySub envAB "B" = true := by decide
    have l1 : (envAB.substitutes.lookup "A").getD "" = "{{B}}" := by decide
    have l2 : (envAB.substitutes.lookup "B").getD "" = "{{A}}" := by decide
    have k1 : subKeys envAB = ["A", "B"] := by decide
    simp [checkCircularDependencies, dfs, dfsList, e1, e2, t1, t2, l1, l2, k1,
      List.erase_cons, List.indexOf_cons, List.indexOf, List.findIdx, List.findIdx.go]
  · have e2 : extractLinks "{{A}}" = [⟨"{{A}}", "A", 0⟩] := by decide
    have t1 : truthySub envSelf "A" = true := by decide
    have l1 : (envSelf.substitutes.lookup "A").getD "" = "{{A}}" := by decide
    have k1 : subKeys envSelf = ["A"] := by decide
    simp [checkCircularDependencies, dfs, dfsList, e2, t1, l1, k1,
      List.erase_cons, List.indexOf_cons, List.indexOf, List.findIdx, List.findIdx.go]
  · have e1 : extractLinks "{{notes.md}}" = [⟨"{{notes.md}}", "notes.md", 0⟩] := by decide
    have t1 : truthySub envFileEdge "A" = true := by decide
    have t2 : truthySub envFileEdge "notes.md" = false := by decide
    have l1 : (envFileEdge.substitutes.lookup "A").getD "" = "{{notes.md}}" := by decide
    have k1 : subKeys envFileEdge = ["A"] := by decide
    simp [checkCircularDependencies, dfs, dfsList, e1, t1, t2, l1, k1, List.erase_cons]

/-- C10 witness: the recorded `[A, B, A]` cycle satisfies the general shape
theorem's conclusion. -/
theorem claim_C10_cycles_witness : cycleOK envAB ["A", "B", "A"] :=
  claim_C10_cycles.1 envAB ["A", "B", "A"]
    (by rw [claim_C10_cycles.2.1]; exact List.mem_singleton_self _)

/-- Lemma: `takeNonBrace` splits its input and its first component is `}`-free. -/
theorem takeNonBrace_spec : ∀ (l : List Char),
    l = (takeNonBrace l).1 ++ (takeNonBrace l).2 ∧ ∀ c ∈ (takeNonBrace l).1, c ≠ '}' := by
  intro l
  induction l with
  | nil => simp [takeNonBrace]
  | cons c cs ih =>
    by_cases hc : c = '}'
    · subst hc
      simp [takeNonBrace]
    · simp only [takeNonBrace, hc, if_false, ite_false]
      constructor
      · conv_lhs => rw [ih.1]
        rw [List.cons_append]
      · intro x hx
        rcases List.mem_cons.mp hx with h | h
        · subst h; exact hc
        · exact ih.2 x h

/-- A successful match at a position reconstructs the input: `{{`, a
non-empty run without `}`, then `}}` and the remainder. -/
theorem matchAtPos_some : ∀ (l inner rest : List Char), matchAtPos l = some (inner, rest) →
    l = '{' :: '{' :: (inner ++ '}' :: '}' :: rest) ∧ inner ≠ [] ∧ ∀ c ∈ inner, c ≠ '}' := by
  intro l inner rest h
  match l with
  | [] => simp [matchAtPos] at h
  | [c] =>
    by_cases hc : c = '{'
    · subst hc; simp [matchAtPos] at h
    · simp [matchAtPos, hc] at h
  | c1 :: c2 :: cs2 =>
    by_cases h1 : c1 = '{'
    · subst h1
      by_cases h2 : c2 = '{'
      · subst h2
        simp only [matchAtPos] at h
        rcases htb : takeNonBrace cs2 with ⟨run, rst⟩
        have hs1 : cs2 = run ++ rst := by
          have hh := (takeNonBrace_spec cs2).1
          rw [htb] at hh
          exact hh
        have hs2 : ∀ c ∈ run, c ≠ '}' := by
          have hh := (takeNonBrace_spec cs2).2
          rw [htb] at hh
          exact hh
        rw [htb] at h
        rcases run with _ | ⟨r, rtl⟩
        · simp at h
        · rcases rst with _ | ⟨e1, rst1⟩
          · simp at h
          · rcases rst1 with _ | ⟨e2, rst2⟩
            · by_cases he1 : e1 = '}'
              · subst he1; simp at h
              · simp [he1] at h
            · by_cases he1 : e1 = '}'
              · subst he1
                by_cases he2 : e2 = '}'
                · subst he2
                  simp only [Option.some.injEq, Prod.mk.injEq] at h
                  obtain ⟨hi, hr⟩ := h
                  subst hi
                  subst hr
                  exact ⟨by rw [hs1], by simp, hs2⟩
                · simp [he2] at h
              · simp [he1] at h
      · simp [matchAtPos, h2] at h
    · simp [matchAtPos, h1] at h

/-- Every character occupies at least one UTF-16 unit. -/
theorem charUnits_pos (c : Char) : 1 ≤ charUnits c := by
  unfold charUnits
  split <;> omega

/-- A marker's UTF-16 length is four braces plus its inner text. -/
theorem utf16Length_marker (inner : List Char) :
    utf16Length ('{' :: '{' :: (inner ++ ['}', '}'])) = 4 + utf16Length inner := by
  have h1 : charUnits '{' = 1 := by decide
  have h2 : charUnits '}' = 1 := by decide
  simp [utf16Length, h1, h2]
  omega

/-- Every link the scanner emits has the marker shape: `{{`, a non-empty
`}`-free inner text, `}}`, with the trimmed inner text as reference. -/
theorem scanAux_shape : ∀ (fuel : Nat) (l : List Char) (i : Nat) (lnk : Link),
    lnk ∈ scanAux fuel l i →
    ∃ inner : List Char, lnk.full = ⟨'{' :: '{' :: (inner ++ ['}', '}'])⟩ ∧ inner ≠ [] ∧
      (∀ ch ∈ inner, ch ≠ '}') ∧ lnk.content = jsTrim ⟨inner⟩ := by
  intro fuel
  induction fuel with
  | zero => intro l i lnk h; simp [scanAux] at h
  | succ fuel ih =>
    intro l i lnk h
    match l with
    | [] => simp [scanAux] at h
    | c :: cs =>
      simp only [scanAux] at h
      cases hm : matchAtPos (c :: cs) with
      | none =>
        simp only [hm] at h
        exact ih cs _ lnk h
      | some p =>
        obtain ⟨inner, rest⟩ := p
        simp only [hm] at h
        rcases List.mem_cons.mp h with h | h
        · subst h
          obtain ⟨-, hne, hnb⟩ := matchAtPos_some _ _ _ hm
          exact ⟨inner, rfl, hne, hnb, rfl⟩
        · exact ih rest _ lnk h

/-- Scanner output is ordered and non-overlapping: every emitted link starts
at or after the scan position, and each link ends before the next begins. -/
theorem scanAux_order : ∀ (fuel : Nat) (l : List Char) (i : Nat),
    (∀ lnk ∈ scanAux fuel l i, i ≤ lnk.index) ∧
    List.Chain' (fun a b => a.index + utf16Length a.full.data ≤ b.index) (scanAux fuel l i) := by
  intro fuel
  induction fuel with
  | zero => intro l i; simp [scanAux]
  | succ fuel ih =>
    intro l i
    match l with
    | [] => simp [scanAux]
    | c :: cs =>
      simp only [scanAux]
      cases hm : matchAtPos (c :: cs) with
      | none =>
        simp only [hm]
        refine ⟨fun lnk h => ?_, (ih cs _).2⟩
        have hle := (ih cs (i + charUnits c)).1 lnk h
        have hcu := charUnits_pos c
        omega
      | some p =>
        obtain ⟨inner, rest⟩ := p
        simp only [hm]
        constructor
        · intro lnk h
          rcases List.mem_cons.mp h with h | h
          · subst h; simp
          · have := (ih rest _).1 lnk h
            omega
        · rw [List.chain'_cons']
          refine ⟨?_, (ih rest _).2⟩
          intro b hb
          have hmem : b ∈ scanAux fuel rest (i + 4 + utf16Length inner) :=
            List.mem_of_mem_head? hb
          have hle := (ih rest _).1 b hmem
          show i + utf16Length ('{' :: '{' :: (inner ++ ['}', '}'])) ≤ b.index
          rw [utf16Length_marker]
          omega

/-- A text without `{{` scans to the empty sequence. -/
theorem scanAux_no_marker : ∀ (fuel : Nat) (l : List Char) (i : Nat),
    firstOccur l ['{', '{'] = none → scanAux fuel l i = [] := by
  intro fuel
  induction fuel with
  | zero => intro l i _; rfl
  | succ fuel ih =>
    intro l i h
    match l with
    | [] => rfl
    | c :: cs =>
      have hstep : firstOccur (c :: cs) ['{', '{'] =
          if List.isPrefixOf ['{', '{'] (c :: cs) then some 0
          else (firstOccur cs ['{', '{']).map (· + 1) := rfl
      rw [hstep] at h
      by_cases hp : List.isPrefixOf ['{', '{'] (c :: cs) = true
      · rw [if_pos hp] at h
        cases h
      · rw [if_neg hp] at h
        have hcs : firstOccur cs ['{', '{'] = none := by
          cases hfo : firstOccur cs ['{', '{'] with
          | none => rfl
          | some k => rw [hfo] at h; simp at h
        have hm : matchAtPos (c :: cs) = none := by
          cases hmm : matchAtPos (c :: cs) with
          | none => rfl
          | some p =>
            obtain ⟨inner, rest⟩ := p
            obtain ⟨heq, -, -⟩ := matchAtPos_some _ _ _ hmm
            exact absurd (by rw [heq]; simp [List.isPrefixOf]) hp
        simp only [scanAux, hm]
        exact ih cs _ hcs

/-- UTF-16 length of a cons. -/
theorem utf16Length_cons (c : Char) (l : List Char) :
    utf16Length (c :: l) = charUnits c + utf16Length l := by
  simp [utf16Length]

/-- UTF-16 length distributes over append. -/
theorem utf16Length_append (a b : List Char) :
    utf16Length (a ++ b) = utf16Length a + utf16Length b := by
  simp [utf16Length]

/-- Every link the scanner emits occurs verbatim in the input at its stated
offset: the input splits at a character position `k` whose prefix has UTF-16
length `lnk.index - i`, and the emitted marker text is exactly what follows
there. -/
theorem scanAux_placement : ∀ (fuel : Nat) (l : List Char) (i : Nat),
    ∀ lnk ∈ scanAux fuel l i, ∃ k r, lnk.index = i + utf16Length (l.take k) ∧
      lnk.full.data ++ r = l.drop k := by
  intro fuel
  induction fuel with
  | zero => intro l i lnk h; simp [scanAux] at h
  | succ fuel ih =>
    intro l i lnk h
    match l with
    | [] => simp [scanAux] at h
    | c :: cs =>
      simp only [scanAux] at h
      cases hm : matchAtPos (c :: cs) with
      | none =>
        simp only [hm] at h
        obtain ⟨k, r, hidx, hpre⟩ := ih cs (i + charUnits c) lnk h
        refine ⟨k + 1, r, ?_, ?_⟩
        · rw [List.take_succ_cons, utf16Length_cons]
          omega
        · rw [List.drop_succ_cons]
          exact hpre
      | some p =>
        obtain ⟨inner, rest⟩ := p
        simp only [hm] at h
        obtain ⟨heq, hne, hnb⟩ := matchAtPos_some _ _ _ hm
        have heq2 : c :: cs = ('{' :: '{' :: (inner ++ ['}', '}'])) ++ rest := by
          rw [heq]
          simp [List.append_assoc]
        rcases List.mem_cons.mp h with h | h
        · subst h
          refine ⟨0, rest, by simp [utf16Length], ?_⟩
          simp only [List.drop_zero]
          exact heq2.symm
        · obtain ⟨k, r, hidx, hpre⟩ := ih rest (i + 4 + utf16Length inner) lnk h
          refine ⟨('{' :: '{' :: (inner ++ ['}', '}'])).length + k, r, ?_, ?_⟩
          · rw [heq2, List.take_append, utf16Length_append, utf16Length_marker]
            omega
          · rw [heq2, List.drop_append]
            exact hpre

/-- Completeness of the scan: wherever the marker grammar matches (at char
position `k` of the input), the scanner's output contains a link whose span
covers `k` — at `k` itself, or an earlier marker that consumed position `k`
(the returned links being the leftmost, non-overlapping occurrences). -/
theorem scanAux_complete : ∀ (fuel : Nat) (l : List Char) (i : Nat), l.length ≤ fuel →
    ∀ (k : Nat) (p : List Char × List Char), matchAtPos (l.drop k) = some p →
    ∃ lnk ∈ scanAux fuel l i, ∃ j r, lnk.index = i + utf16Length (l.take j) ∧
      lnk.full.data ++ r = l.drop j ∧ j ≤ k ∧ k < j + lnk.full.data.length := by
  intro fuel
  induction fuel with
  | zero =>
    intro l i hl k p hm
    have hnil : l = [] := List.length_eq_zero.mp (Nat.le_zero.mp hl)
    subst hnil
    rw [List.drop_nil] at hm
    simp [matchAtPos] at hm
  | succ fuel ih =>
    intro l i hl k p hm
    match l with
    | [] =>
      rw [List.drop_nil] at hm
      simp [matchAtPos] at hm
    | c :: cs =>
      cases hmp : matchAtPos (c :: cs) with
      | none =>
        cases k with
        | zero =>
          rw [List.drop_zero] at hm
          rw [hmp] at hm
          cases hm
        | succ k' =>
          rw [List.drop_succ_cons] at hm
          have hl' : cs.length ≤ fuel := by
            simp only [List.length_cons] at hl
            omega
          obtain ⟨lnk, hmem, j, r, hidx, hpre, hjk, hkj⟩ := ih cs (i + charUnits c) hl' k' p hm
          refine ⟨lnk, ?_, j + 1, r, ?_, ?_, ?_, ?_⟩
          · simp only [scanAux, hmp]
            exact hmem
          · rw [List.take_succ_cons, utf16Length_cons]
            omega
          · rw [List.drop_succ_cons]
            exact hpre
          · omega
          · omega
      | some q =>
        obtain ⟨inner, rest⟩ := q
        obtain ⟨heq, hne, hnb⟩ := matchAtPos_some _ _ _ hmp
        have heq2 : c :: cs = ('{' :: '{' :: (inner ++ ['}', '}'])) ++ rest := by
          rw [heq]
          simp [List.append_assoc]
        by_cases hk : k < ('{' :: '{' :: (inner ++ ['}', '}'])).length
        · refine ⟨⟨⟨'{' :: '{' :: (inner ++ ['}', '}'])⟩, jsTrim ⟨inner⟩, i⟩, ?_, 0, rest,
            by simp [utf16Length], ?_, Nat.zero_le _, ?_⟩
          · simp only [scanAux, hmp]
            exact List.mem_cons_self _ _
          · simp only [List.drop_zero]
            exact heq2.symm
          · simpa using hk
        · push_neg at hk
          obtain ⟨k'', rfl⟩ : ∃ k'', k = ('{' :: '{' :: (inner ++ ['}', '}'])).length + k'' :=
            ⟨k - ('{' :: '{' :: (inner ++ ['}', '}'])).length, by omega⟩
          rw [heq2, List.drop_append] at hm
          have hlenfull : ('{' :: '{' :: (inner ++ ['}', '}'])).length = inner.length + 4 := by
            simp [List.length_append]
          have hl' : rest.length ≤ fuel := by
            have h1 : (c :: cs).length = inner.length + 4 + rest.length := by
              rw [heq2, List.length_append, hlenfull]
            have h2 : 1 ≤ inner.length := List.length_pos.mpr hne
            omega
          obtain ⟨lnk, hmem, j, r, hidx, hpre, hjk, hkj⟩ :=
            ih rest (i + 4 + utf16Length inner) hl' k'' p hm
          refine ⟨lnk, ?_, ('{' :: '{' :: (inner ++ ['}', '}'])).length + j, r, ?_, ?_, ?_, ?_⟩
          · simp only [scanAux, hmp]
            exact List.mem_cons_of_mem _ hmem
          · rw [heq2, List.take_append, utf16Length_append, utf16Length_marker]
            omega
          · rw [heq2, List.drop_append]
            exact hpre
          · omega
          · omega
/-- C8 counterexample: the regex inner-text language is `[^}]+`, not "any
characters not containing `}}`": the text `{{a}b}}`, whose inner text `a}b`
contains a single `}` but no `}}`, is a marker under the claim's grammar yet
`extractLinks` finds nothing in it. -/
theorem claim_C8_counterexample :
    extractLinks "\x7b\x7ba\x7db\x7d\x7d" = [] ∧
    specScanClaim "\x7b\x7ba\x7db\x7d\x7d" = [⟨"\x7b\x7ba\x7db\x7d\x7d", "a\x7db", 0⟩] := by decide

/-- C8 amended: `extractLinks` returns the non-overlapping, left-to-right
occurrences in the text of the marker grammar `{{`, then ONE OR MORE
characters none of which is `}` (so not merely excluding the pair `}}` — any
single `}` ends no marker, and an empty reference is not a marker), then
`}}`, each paired with its UTF-16 source offset.  Concretely: (shape) every
returned link is such a marker with the trimmed inner text as reference;
(order) consecutive returned links are disjoint, in order of offset;
(emptiness) a text containing no `{{` yields the empty sequence; (placement)
every returned link's marker text occurs verbatim in the text at the
character position whose prefix has exactly the link's stated UTF-16 length;
and (completeness) wherever the marker grammar matches in the text, some
returned link's span covers that position — the position is a returned
marker's own start, or was consumed by an earlier overlapping returned
marker, which is exactly the regex's leftmost non-overlapping scan. -/
theorem claim_C8_amended :
    (∀ (s : String) (lnk : Link), lnk ∈ extractLinks s →
      ∃ inner : List Char, lnk.full = ⟨'{' :: '{' :: (inner ++ ['}', '}'])⟩ ∧
        inner ≠ [] ∧ (∀ ch ∈ inner, ch ≠ '}') ∧ lnk.content = jsTrim ⟨inner⟩) ∧
    (∀ s : String, List.Chain'
      (fun a b => a.index + utf16Length a.full.data ≤ b.index) (extractLinks s)) ∧
    (∀ s : String, containsSubstr s "\x7b\x7b" = false → extractLinks s = []) ∧
    (∀ (s : String) (lnk : Link), lnk ∈ extractLinks s →
      ∃ k r, lnk.index = utf16Length (s.data.take k) ∧ lnk.full.data ++ r = s.data.drop k) ∧
    (∀ (s : String) (k : Nat) (p : List Char × List Char),
      matchAtPos (s.data.drop k) = some p →
      ∃ lnk ∈ extractLinks s, ∃ j r, lnk.index = utf16Length (s.data.take j) ∧
        lnk.full.data ++ r = s.data.drop j ∧ j ≤ k ∧ k < j + lnk.full.data.length) := by
  refine ⟨?_, ?_, ?_, ?_, ?_⟩
  · intro s lnk h
    exact scanAux_shape _ _ _ lnk h
  · intro s
    exact (scanAux_order _ _ _).2
  · intro s h
    have hfo : firstOccur s.data ['{', '{'] = none := by
      unfold containsSubstr at h
      cases hfo : firstOccur s.data "\x7b\x7b".data with
      | none => rfl
      | some k => rw [hfo] at h; simp [Option.isSome] at h
    exact scanAux_no_marker _ _ _ hfo
  · intro s lnk h
    obtain ⟨k, r, hidx, hpre⟩ := scanAux_placement _ _ _ lnk h
    exact ⟨k, r, by simpa using hidx, hpre⟩
  · intro s k p hm
    obtain ⟨lnk, hmem, j, r, hidx, hpre, hjk, hkj⟩ :=
      scanAux_complete s.data.length s.data 0 (le_refl _) k p hm
    exact ⟨lnk, hmem, j, r, by simpa using hidx, hpre, hjk, hkj⟩

/-- C8 witness: the five parts of the amended scanner characterization at
concrete texts — in particular the `{{x}}` link of `"a {{x}} b {{ y z }} c"`
is placed at its stated offset 2, and the grammar match at position 2 is
covered by a returned link. -/
theorem claim_C8_amended_witness :
    (∃ inner : List Char, (⟨"{{x}}", "x", 2⟩ : Link).full = ⟨'{' :: '{' :: (inner ++ ['}', '}'])⟩ ∧
      inner ≠ [] ∧ (∀ ch ∈ inner, ch ≠ '}') ∧
      (⟨"{{x}}", "x", 2⟩ : Link).content = jsTrim ⟨inner⟩) ∧
    List.Chain' (fun a b => a.index + utf16Length a.full.data ≤ b.index)
      (extractLinks "a {{x}} b {{ y z }} c") ∧
    extractLinks "no markers here" = [] ∧
    (∃ k r, (⟨"{{x}}", "x", 2⟩ : Link).index =
        utf16Length (("a {{x}} b {{ y z }} c" : String).data.take k) ∧
      (⟨"{{x}}", "x", 2⟩ : Link).full.data ++ r =
        ("a {{x}} b {{ y z }} c" : String).data.drop k) ∧
    (∃ lnk ∈ extractLinks "a {{x}} b {{ y z }} c", ∃ j r,
      lnk.index = utf16Length (("a {{x}} b {{ y z }} c" : String).data.take j) ∧
      lnk.full.data ++ r = ("a {{x}} b {{ y z }} c" : String).data.drop j ∧
      j ≤ 2 ∧ 2 < j + lnk.full.data.length) :=
  ⟨claim_C8_amended.1 "a {{x}} b {{ y z }} c" ⟨"{{x}}", "x", 2⟩ (by decide),
   claim_C8_amended.2.1 "a {{x}} b {{ y z }} c",
   claim_C8_amended.2.2.1 "no markers here" (by decide),
   claim_C8_amended.2.2.2.1 "a {{x}} b {{ y z }} c" ⟨"{{x}}", "x", 2⟩ (by decide),
   claim_C8_amended.2.2.2.2 "a {{x}} b {{ y z }} c" 2 ("x".data, " b {{ y z }} c".data)
     (by decide)⟩
